import Mathlib

/-!
Verification of the temporal alignment and label-emission core of
`make_csv.py` (bee_analysis).  The pipeline reconciles a log of timestamped
events with a timeline of video segments and emits, per event, one or more
label rows giving segment-relative start/end frames.

Shallow embedding conventions:
* every timestamp the source converts with `int(...)` is an `ℤ`;
* the `length` column of `file_epoch_map_df` is a `ℚ`, because the source
  fills the last row with the true division `frames / fps` (line 129) while
  all other rows are integer differences of epoch timestamps;
* Python `int()` applied to a float is truncation toward zero (`pyInt`);
* the exceptions the source can raise during alignment (the empty-`argmin`
  `ValueError` in `_find_latest_video`, the `IndexError` when the overflow
  walk runs past the last dataframe row) are modelled by `Except AlignError`;
* a video is identified by its positional index in `file_epoch_map_df`
  (filenames are unique, and `.index[0]` recovers exactly that position).
-/

namespace BeeAnalysis

/-- One row of `file_epoch_map_df` after `_add_video_end_info`: segment start
epoch second, the `length` column (seconds, rational because the last row is a
true division), and the `end_epoch_ts` column. -/
structure VideoInfo where
  epoch_ts : ℤ
  length : ℚ
  end_epoch_ts : ℤ
deriving DecidableEq

/-- One row of `events_df` after `_add_event_end_info`: class string, start
timestamp and end timestamp, both already converted to epoch seconds. -/
structure Event where
  cls : String
  ts : ℤ
  end_ts : ℤ
deriving DecidableEq

/-- One emitted label row (`filename`, `class`, `start frame`, `end frame`).
The filename is modelled by the positional index of the video in the
timeline; frames are rational because the overflow walk can emit the raw
`length` column value as an end frame. -/
structure LabelRow where
  filename : ℕ
  cls : String
  start_frame : ℚ
  end_frame : ℚ
deriving DecidableEq

/-- Failure modes of the alignment run.  `UnalignedEvent` models the
`ValueError` raised by `np.argmin` on an empty candidate set in
`_find_latest_video`; `SegmentExhausted` models the `IndexError` raised by
`.iloc[video_index]` when the overflow walk runs past the last row. -/
inductive AlignError where
  | UnalignedEvent
  | SegmentExhausted
deriving DecidableEq

instance exceptDecEq {ε α : Type} [DecidableEq ε] [DecidableEq α] :
    DecidableEq (Except ε α)
  | .ok x, .ok y =>
    if h : x = y then isTrue (by rw [h]) else
      isFalse (by intro hc; cases hc; exact h rfl)
  | .ok _, .error _ => isFalse (by intro hc; cases hc)
  | .error _, .ok _ => isFalse (by intro hc; cases hc)
  | .error e, .error f =>
    if h : e = f then isTrue (by rw [h]) else
      isFalse (by intro hc; cases hc; exact h rfl)

/-- Python `int()` applied to a (rational-valued) float: truncation toward
zero. -/
def pyInt (q : ℚ) : ℤ := if 0 ≤ q then ⌊q⌋ else ⌈q⌉

/-- Pair each list element with its positional dataframe index, starting at
`n`. -/
def withIndex {α : Type} (n : ℕ) : List α → List (ℕ × α)
  | [] => []
  | a :: l => (n, a) :: withIndex (n + 1) l

/-- `_add_video_end_info` restricted to its arithmetic content: from the
ordered column of segment start epoch seconds, the last video's frame count
and the frame rate, build the `length` and `end_epoch_ts` columns.  For every
row but the last, `length` is the next start minus this start and
`end_epoch_ts` is the next start (the `shift(-1)` lines).  For the last row,
`length` is the true division `frames / fps` and `end_epoch_ts` is the start
plus `int(frames / fps)`. -/
def add_video_end_info (lastFrames fps : ℕ) : List ℤ → List VideoInfo
  | [] => []
  | [s] => [⟨s, (lastFrames : ℚ) / (fps : ℚ), s + pyInt ((lastFrames : ℚ) / (fps : ℚ))⟩]
  | s :: s' :: rest =>
    ⟨s, ((s' - s : ℤ) : ℚ), s'⟩ :: add_video_end_info lastFrames fps (s' :: rest)

/-- `_find_latest_video`: filter the rows whose `epoch_ts` is strictly below
the event timestamp, then take the row minimising `|epoch_ts − t|`
(`np.argmin`, first minimiser on ties).  The positional index is returned
alongside the row, matching the source's `.index[0]` lookup of the unique
matching filename.  An empty candidate set (the `ValueError` case) gives
`none`. -/
def find_latest_video (t : ℤ) (videos : List VideoInfo) : Option (ℕ × VideoInfo) :=
  ((withIndex 0 videos).filter (fun p => decide (p.2.epoch_ts < t))).argmin
    (fun p => (p.2.epoch_ts - t).natAbs)

/-- The `while leftover_seconds > 0` overflow walk of `run_thru_events`.
`j` is `video_index`, `vl` the remaining dataframe rows `iloc[j:]`.  Each
iteration emits a row with `start frame = min(4, leftover * fps)`; if the
leftover is below the current row's `length` the row ends at
`leftover * fps` and the leftover becomes `0` (the loop then exits),
otherwise the row ends at the raw `length` value (seconds, not multiplied by
`fps`) and the walk advances.  Running past the last row with a positive
leftover is the `IndexError`, modelled as `SegmentExhausted`. -/
def overflow_walk (fps : ℕ) (cls : String) :
    ℕ → List VideoInfo → ℚ → Except AlignError (List LabelRow)
  | _, [], leftover =>
    if 0 < leftover then .error .SegmentExhausted else .ok []
  | j, v :: rest, leftover =>
    if 0 < leftover then
      if leftover < v.length then
        (overflow_walk fps cls (j + 1) rest 0).map
          (fun rs => ⟨j, cls, min 4 (leftover * (fps : ℚ)), leftover * (fps : ℚ)⟩ :: rs)
      else
        (overflow_walk fps cls (j + 1) rest (leftover - v.length)).map
          (fun rs => ⟨j, cls, min 4 (leftover * (fps : ℚ)), v.length⟩ :: rs)
    else .ok []

/-- The per-event body of the `run_thru_events` loop: resolve the owning
video, emit the primary label, and on overflow (`event_end_ts >
starting_video_end_ts`) run the overflow walk from the next row, appending
the primary label after the walk's rows (the source appends `label` only
after the `while` loop). -/
def process_event (videos : List VideoInfo) (fps : ℕ) (ev : Event) :
    Except AlignError (List LabelRow) :=
  match find_latest_video ev.ts videos with
  | none => .error .UnalignedEvent
  | some (i, vi) =>
    let sf : ℚ := ((ev.ts - vi.epoch_ts : ℤ) : ℚ) * (fps : ℚ)
    if vi.end_epoch_ts < ev.end_ts then
      (overflow_walk fps ev.cls (i + 1) (videos.drop (i + 1))
          ((ev.end_ts - vi.end_epoch_ts : ℤ) : ℚ)).map
        (fun rs => rs ++ [⟨i, ev.cls, sf, ((pyInt vi.length - 1 : ℤ) : ℚ) * (fps : ℚ)⟩])
    else
      .ok [⟨i, ev.cls, sf, ((ev.end_ts - vi.epoch_ts : ℤ) : ℚ) * (fps : ℚ)⟩]

/-- The `labels_list` accumulated by the `run_thru_events` loop over all
events, before the final sort.  An exception raised for any event aborts the
whole run with no output. -/
def collect_labels (videos : List VideoInfo) (fps : ℕ) :
    List Event → Except AlignError (List LabelRow)
  | [] => .ok []
  | ev :: rest => do
    let rs ← process_event videos fps ev
    let tail ← collect_labels videos fps rest
    pure (rs ++ tail)

/-- `run_thru_events`: the collected label list, sorted by filename
(`sort_values(by="filename")`). -/
def run_thru_events (videos : List VideoInfo) (fps : ℕ) (events : List Event) :
    Except AlignError (List LabelRow) :=
  (collect_labels videos fps events).map
    (fun l => l.mergeSort (fun a b => decide (a.filename ≤ b.filename)))

/-- Shared concrete timeline used by the witnesses: segment starts `0, 10, 25`,
last frame count `30`, frame rate `2` — the spec's own boundary scenario. -/
def demoVideos : List VideoInfo := add_video_end_info 30 2 [0, 10, 25]

/-! Helper lemmas. -/

theorem pyInt_intCast (m : ℤ) : pyInt ((m : ℤ) : ℚ) = m := by
  unfold pyInt
  split <;> simp

theorem pyInt_cast_le {q : ℚ} (h : 0 ≤ q) : ((pyInt q : ℤ) : ℚ) ≤ q := by
  unfold pyInt
  rw [if_pos h]
  exact Int.floor_le q

theorem map_eq_ok_iff {ε α β : Type} {f : α → β} {x : Except ε α} {y : β} :
    x.map f = .ok y ↔ ∃ a, x = .ok a ∧ y = f a := by
  cases x <;> simp [Except.map, eq_comm]

theorem map_eq_error_iff {ε α β : Type} {f : α → β} {x : Except ε α} {e : ε} :
    x.map f = .error e ↔ x = .error e := by
  cases x <;> simp [Except.map]

theorem mem_withIndex {α : Type} :
    ∀ (l : List α) (n : ℕ) (p : ℕ × α),
      p ∈ withIndex n l ↔ ∃ k, ∃ h : k < l.length, p = (n + k, l.get ⟨k, h⟩)
  | [], n, p => by simp [withIndex]
  | a :: l, n, p => by
    simp only [withIndex, List.mem_cons, mem_withIndex l (n + 1) p]
    constructor
    · rintro (rfl | ⟨k, hk, rfl⟩)
      · exact ⟨0, by simp, by simp⟩
      · refine ⟨k + 1, by simpa using hk, ?_⟩
        simp [List.get_cons_succ]
        omega
    · rintro ⟨k, hk, rfl⟩
      cases k with
      | zero => exact Or.inl (by simp)
      | succ m =>
        refine Or.inr ⟨m, by simpa using hk, ?_⟩
        simp [List.get_cons_succ]
        omega

theorem find_latest_video_some {t : ℤ} {videos : List VideoInfo} {i : ℕ}
    {vi : VideoInfo} (h : find_latest_video t videos = some (i, vi)) :
    ∃ hi : i < videos.length, videos.get ⟨i, hi⟩ = vi ∧ vi.epoch_ts < t := by
  have hmem : (i, vi) ∈
      ((withIndex 0 videos).filter fun p => decide (p.2.epoch_ts < t)) :=
    List.argmin_mem h
  rw [List.mem_filter] at hmem
  obtain ⟨hmem, hlt⟩ := hmem
  rw [mem_withIndex] at hmem
  obtain ⟨k, hk, hpk⟩ := hmem
  obtain ⟨rfl, rfl⟩ : i = k ∧ vi = videos.get ⟨k, hk⟩ := by
    constructor
    · simpa using congrArg Prod.fst hpk
    · simpa using congrArg Prod.snd hpk
  exact ⟨hk, rfl, by simpa using hlt⟩

theorem find_latest_video_max {t : ℤ} {videos : List VideoInfo} {i : ℕ}
    {vi : VideoInfo} (h : find_latest_video t videos = some (i, vi)) :
    ∀ j (hj : j < videos.length), (videos.get ⟨j, hj⟩).epoch_ts < t →
      (videos.get ⟨j, hj⟩).epoch_ts ≤ vi.epoch_ts := by
  intro j hj hjt
  have hjmem : (j, videos.get ⟨j, hj⟩) ∈
      ((withIndex 0 videos).filter fun p => decide (p.2.epoch_ts < t)) := by
    rw [List.mem_filter]
    exact ⟨(mem_withIndex videos 0 _).mpr ⟨j, hj, by simp⟩, by simpa using hjt⟩
  have hvt : vi.epoch_ts < t := (find_latest_video_some h).2.2
  unfold find_latest_video at h
  have hle := List.le_of_mem_argmin hjmem h
  dsimp only at hle
  omega

theorem find_latest_video_exists {t : ℤ} {videos : List VideoInfo}
    (hex : ∃ j, ∃ hj : j < videos.length, (videos.get ⟨j, hj⟩).epoch_ts < t) :
    ∃ p, find_latest_video t videos = some p := by
  obtain ⟨j, hj, hjt⟩ := hex
  cases hfind : find_latest_video t videos with
  | some p => exact ⟨p, rfl⟩
  | none =>
    exfalso
    rw [find_latest_video, List.argmin_eq_none, List.filter_eq_nil_iff] at hfind
    have hmem : (j, videos.get ⟨j, hj⟩) ∈ withIndex 0 videos :=
      (mem_withIndex videos 0 _).mpr ⟨j, hj, by simp⟩
    have hker := hfind _ hmem
    simp at hker
    have hjt2 : videos[j].epoch_ts < t := hjt
    omega

theorem overflow_walk_nonpos (fps : ℕ) (cls : String) (j : ℕ)
    (vl : List VideoInfo) (leftover : ℚ) (h : ¬ 0 < leftover) :
    overflow_walk fps cls j vl leftover = .ok [] := by
  cases vl <;> simp [overflow_walk, h]

theorem overflow_walk_stop (fps : ℕ) (cls : String) (j : ℕ) (v : VideoInfo)
    (rest : List VideoInfo) (leftover : ℚ) (h0 : 0 < leftover)
    (h1 : leftover < v.length) :
    overflow_walk fps cls j (v :: rest) leftover
      = .ok [⟨j, cls, min 4 (leftover * (fps : ℚ)), leftover * (fps : ℚ)⟩] := by
  simp only [overflow_walk, if_pos h0, if_pos h1,
    overflow_walk_nonpos fps cls (j + 1) rest 0 (by norm_num), Except.map]

theorem overflow_walk_advance (fps : ℕ) (cls : String) (j : ℕ) (v : VideoInfo)
    (rest : List VideoInfo) (leftover : ℚ) (h0 : 0 < leftover)
    (h1 : ¬ leftover < v.length) :
    overflow_walk fps cls j (v :: rest) leftover
      = (overflow_walk fps cls (j + 1) rest (leftover - v.length)).map
          (fun rs => ⟨j, cls, min 4 (leftover * (fps : ℚ)), v.length⟩ :: rs) := by
  simp only [overflow_walk, if_pos h0, if_neg h1]

theorem overflow_walk_start_le_four (fps : ℕ) (cls : String) :
    ∀ (vl : List VideoInfo) (j : ℕ) (leftover : ℚ) (rows : List LabelRow),
      overflow_walk fps cls j vl leftover = .ok rows → ∀ r ∈ rows, r.start_frame ≤ 4
  | [], j, leftover, rows, hok => by
    by_cases h : 0 < leftover
    · simp [overflow_walk, h] at hok
    · rw [overflow_walk_nonpos _ _ _ _ _ h] at hok
      injection hok with h2
      subst h2
      simp
  | v :: rest, j, leftover, rows, hok => by
    by_cases h : 0 < leftover
    · by_cases h1 : leftover < v.length
      · rw [overflow_walk_stop _ _ _ _ _ _ h h1] at hok
        injection hok with h2
        subst h2
        intro r hr
        simp only [List.mem_singleton] at hr
        subst hr
        exact min_le_left _ _
      · rw [overflow_walk_advance _ _ _ _ _ _ h h1, map_eq_ok_iff] at hok
        obtain ⟨rs, hrs, rfl⟩ := hok
        intro r hr
        rcases List.mem_cons.mp hr with rfl | hr
        · exact min_le_left _ _
        · exact overflow_walk_start_le_four fps cls rest (j + 1) _ rs hrs r hr
    · rw [overflow_walk_nonpos _ _ _ _ _ h] at hok
      injection hok with h2
      subst h2
      simp

theorem demoVideos_eq :
    demoVideos = [⟨0, 10, 10⟩, ⟨10, 15, 25⟩, ⟨25, 15, 40⟩] := by
  norm_num [demoVideos, add_video_end_info, pyInt]

/-- C1: whenever some segment starts strictly before the event time `t`,
`_find_latest_video` resolves the owning segment as the one with the greatest
`start_time` strictly less than `t`; in particular an event starting exactly
at segment `k`'s start time is owned by segment `k − 1`, because resolution
uses strict less-than. -/
theorem owning_segment_is_latest_before (videos : List VideoInfo) (t : ℤ)
    (hsort : List.Pairwise (fun a b => a.epoch_ts < b.epoch_ts) videos)
    (hex : ∃ j, ∃ hj : j < videos.length, (videos.get ⟨j, hj⟩).epoch_ts < t) :
    ∃ i vi, find_latest_video t videos = some (i, vi) ∧
      ∃ hi : i < videos.length, videos.get ⟨i, hi⟩ = vi ∧ vi.epoch_ts < t ∧
        (∀ j (hj : j < videos.length), (videos.get ⟨j, hj⟩).epoch_ts < t →
          (videos.get ⟨j, hj⟩).epoch_ts ≤ vi.epoch_ts) ∧
        (∀ k (hk : k < videos.length), (videos.get ⟨k, hk⟩).epoch_ts = t →
          i + 1 = k) := by
  obtain ⟨⟨i, vi⟩, hfind⟩ := find_latest_video_exists hex
  obtain ⟨hi, hget, hlt⟩ := find_latest_video_some hfind
  refine ⟨i, vi, hfind, hi, hget, hlt, find_latest_video_max hfind, ?_⟩
  intro k hk hkt
  have hpg := List.pairwise_iff_get.mp hsort
  have hik : i < k := by
    by_contra hik
    push_neg at hik
    rcases eq_or_lt_of_le hik with heq | hki
    · have hgi : videos.get ⟨k, hk⟩ = vi := by subst heq; exact hget
      rw [hgi] at hkt
      omega
    · have := hpg ⟨k, hk⟩ ⟨i, hi⟩ (Fin.mk_lt_mk.mpr hki)
      rw [hget] at this
      omega
  have hk1 : k - 1 < videos.length := by omega
  have hlt1 : (videos.get ⟨k - 1, hk1⟩).epoch_ts < t := by
    have := hpg ⟨k - 1, hk1⟩ ⟨k, hk⟩ (Fin.mk_lt_mk.mpr (by omega))
    omega
  have hle1 := find_latest_video_max hfind (k - 1) hk1 hlt1
  have hnot : ¬ i < k - 1 := by
    intro hlt2
    have := hpg ⟨i, hi⟩ ⟨k - 1, hk1⟩ (Fin.mk_lt_mk.mpr hlt2)
    rw [hget] at this
    omega
  omega

theorem owning_segment_is_latest_before_witness :
    (List.Pairwise (fun a b => a.epoch_ts < b.epoch_ts) demoVideos ∧
      (∃ j, ∃ hj : j < demoVideos.length, (demoVideos.get ⟨j, hj⟩).epoch_ts < 10)) ∧
    (∃ i vi, find_latest_video 10 demoVideos = some (i, vi) ∧
      ∃ hi : i < demoVideos.length, demoVideos.get ⟨i, hi⟩ = vi ∧ vi.epoch_ts < 10 ∧
        (∀ j (hj : j < demoVideos.length), (demoVideos.get ⟨j, hj⟩).epoch_ts < 10 →
          (demoVideos.get ⟨j, hj⟩).epoch_ts ≤ vi.epoch_ts) ∧
        (∀ k (hk : k < demoVideos.length), (demoVideos.get ⟨k, hk⟩).epoch_ts = 10 →
          i + 1 = k)) := by
  have hsort : List.Pairwise (fun a b : VideoInfo => a.epoch_ts < b.epoch_ts) demoVideos := by
    rw [demoVideos_eq]
    norm_num
  have hex : ∃ j, ∃ hj : j < demoVideos.length, (demoVideos.get ⟨j, hj⟩).epoch_ts < 10 := by
    have h3 : (0 : ℕ) < demoVideos.length := by simp [demoVideos_eq]
    refine ⟨0, h3, ?_⟩
    have hg : demoVideos.get ⟨0, h3⟩ = ⟨0, 10, 10⟩ := by simp [demoVideos_eq]
    rw [hg]
    norm_num
  exact ⟨⟨hsort, hex⟩, owning_segment_is_latest_before demoVideos 10 hsort hex⟩

/-- C10: every row emitted by the overflow walk (as opposed to an
owning-segment primary row) has `start frame = min(4, leftover * fps) ≤ 4`,
for every positive leftover and positive frame rate. -/
theorem overflow_rows_start_le_four (fps : ℕ) (cls : String) (j : ℕ)
    (vl : List VideoInfo) (leftover : ℚ) (rows : List LabelRow)
    (hfps : 0 < fps) (hleft : 0 < leftover)
    (hok : overflow_walk fps cls j vl leftover = .ok rows) :
    ∀ r ∈ rows, r.start_frame ≤ 4 :=
  overflow_walk_start_le_four fps cls vl j leftover rows hok

theorem overflow_rows_start_le_four_witness :
    (0 < 2 ∧ (0 : ℚ) < 2 ∧
      overflow_walk 2 "Pos" 1 [⟨10, 15, 25⟩] 2 = .ok [⟨1, "Pos", 4, 4⟩]) ∧
      ∀ r ∈ [(⟨1, "Pos", 4, 4⟩ : LabelRow)], r.start_frame ≤ 4 := by
  have heval : overflow_walk 2 "Pos" 1 [⟨10, 15, 25⟩] (2 : ℚ) = .ok [⟨1, "Pos", 4, 4⟩] := by
    norm_num [overflow_walk, min_def, Except.map]
  exact ⟨⟨by norm_num, by norm_num, heval⟩,
    overflow_rows_start_le_four 2 "Pos" 1 [⟨10, 15, 25⟩] 2 [⟨1, "Pos", 4, 4⟩]
      (by norm_num) (by norm_num) heval⟩

/-- C3: an event whose end time is at most its owning segment's end time emits
exactly one label row, with `start frame = (event.ts − owner.start) * fps` and
`end frame = (event.end_ts − owner.start) * fps` (all quantities integral, so
the spec's floors are identities); a zero-duration event therefore emits one
row with `start frame = end frame` and no overflow rows. -/
theorem contained_event_single_row (videos : List VideoInfo) (fps : ℕ)
    (ev : Event) (i : ℕ) (vi : VideoInfo)
    (hfind : find_latest_video ev.ts videos = some (i, vi))
    (hcont : ev.end_ts ≤ vi.end_epoch_ts) :
    process_event videos fps ev
      = .ok [⟨i, ev.cls, ((ev.ts - vi.epoch_ts : ℤ) : ℚ) * (fps : ℚ),
          ((ev.end_ts - vi.epoch_ts : ℤ) : ℚ) * (fps : ℚ)⟩] ∧
      (ev.ts = ev.end_ts →
        ((ev.ts - vi.epoch_ts : ℤ) : ℚ) * (fps : ℚ)
          = ((ev.end_ts - vi.epoch_ts : ℤ) : ℚ) * (fps : ℚ)) := by
  constructor
  · unfold process_event
    rw [hfind]
    dsimp only
    rw [if_neg (not_lt.mpr hcont)]
  · intro h
    rw [h]

theorem contained_event_single_row_witness :
    (find_latest_video 5 demoVideos = some (0, ⟨0, 10, 10⟩) ∧ (8 : ℤ) ≤ 10) ∧
    process_event demoVideos 2 ⟨"Pos", 5, 8⟩
      = .ok [⟨0, "Pos", ((5 - 0 : ℤ) : ℚ) * (2 : ℚ), ((8 - 0 : ℤ) : ℚ) * (2 : ℚ)⟩] := by
  have hfind : find_latest_video 5 demoVideos = some (0, ⟨0, 10, 10⟩) := by
    rw [demoVideos_eq]
    norm_num [find_latest_video, withIndex, List.argmin_cons, List.argmin_singleton]
  exact ⟨⟨hfind, by norm_num⟩,
    (contained_event_single_row demoVideos 2 ⟨"Pos", 5, 8⟩ 0 ⟨0, 10, 10⟩
      hfind (by norm_num)).1⟩

/-- C2: for an overflowing event (`end_ts` past the owning segment's end) the
emitted rows follow the overflow-splitting algorithm: the owning-segment row
ends at `(duration − 1) * fps`; the walk starts with
`leftover = end_ts − owner.end`, each walk row starts at
`min(4, leftover * fps)`; when `leftover < duration` the row ends at
`leftover * fps` and the walk stops, otherwise the row ends at the raw
`duration` value (seconds, not multiplied by `fps`), the leftover drops by
that duration, and the walk advances. -/
theorem overflow_splitting (videos : List VideoInfo) (fps : ℕ) (ev : Event)
    (i : ℕ) (vi : VideoInfo) (m : ℤ)
    (hfind : find_latest_video ev.ts videos = some (i, vi))
    (hover : vi.end_epoch_ts < ev.end_ts)
    (hm : vi.length = (m : ℚ)) :
    process_event videos fps ev
      = (overflow_walk fps ev.cls (i + 1) (videos.drop (i + 1))
            ((ev.end_ts - vi.end_epoch_ts : ℤ) : ℚ)).map
          (fun rs => rs ++ [⟨i, ev.cls, ((ev.ts - vi.epoch_ts : ℤ) : ℚ) * (fps : ℚ),
              (vi.length - 1) * (fps : ℚ)⟩]) ∧
      (∀ (l : ℚ) (j : ℕ) (v : VideoInfo) (rest : List VideoInfo),
        0 < l → l < v.length →
        overflow_walk fps ev.cls j (v :: rest) l
          = .ok [⟨j, ev.cls, min 4 (l * (fps : ℚ)), l * (fps : ℚ)⟩]) ∧
      (∀ (l : ℚ) (j : ℕ) (v : VideoInfo) (rest : List VideoInfo),
        0 < l → ¬ l < v.length →
        overflow_walk fps ev.cls j (v :: rest) l
          = (overflow_walk fps ev.cls (j + 1) rest (l - v.length)).map
              (fun rs => ⟨j, ev.cls, min 4 (l * (fps : ℚ)), v.length⟩ :: rs)) := by
  refine ⟨?_, ?_, ?_⟩
  · unfold process_event
    rw [hfind]
    dsimp only
    rw [if_pos hover]
    have hp : ((pyInt vi.length - 1 : ℤ) : ℚ) = vi.length - 1 := by
      rw [hm, pyInt_intCast]
      push_cast
      ring
    rw [hp]
  · intro l j v rest h0 h1
    exact overflow_walk_stop fps ev.cls j v rest l h0 h1
  · intro l j v rest h0 h1
    exact overflow_walk_advance fps ev.cls j v rest l h0 h1

theorem overflow_splitting_witness :
    (find_latest_video 5 demoVideos = some (0, ⟨0, 10, 10⟩) ∧ (10 : ℤ) < 12 ∧
      ((⟨0, 10, 10⟩ : VideoInfo).length = ((10 : ℤ) : ℚ))) ∧
    process_event demoVideos 2 ⟨"Pos", 5, 12⟩
      = (overflow_walk 2 "Pos" 1 (demoVideos.drop 1) ((12 - 10 : ℤ) : ℚ)).map
          (fun rs => rs ++ [⟨0, "Pos", ((5 - 0 : ℤ) : ℚ) * (2 : ℚ),
              ((⟨0, 10, 10⟩ : VideoInfo).length - 1) * (2 : ℚ)⟩]) := by
  have hfind : find_latest_video 5 demoVideos = some (0, ⟨0, 10, 10⟩) := by
    rw [demoVideos_eq]
    norm_num [find_latest_video, withIndex, List.argmin_cons, List.argmin_singleton]
  exact ⟨⟨hfind, by norm_num, by norm_num⟩,
    (overflow_splitting demoVideos 2 ⟨"Pos", 5, 12⟩ 0 ⟨0, 10, 10⟩ 10
      hfind (by norm_num) (by norm_num)).1⟩

/-- C9: for an overflowing event, the rows collected for that event place all
overflow rows before the owning-segment primary row: the source appends the
primary `label` only after the `while` walk has finished. -/
theorem overflow_rows_precede_primary (videos : List VideoInfo) (fps : ℕ)
    (ev : Event) (i : ℕ) (vi : VideoInfo) (rows : List LabelRow)
    (hfind : find_latest_video ev.ts videos = some (i, vi))
    (hover : vi.end_epoch_ts < ev.end_ts)
    (hok : process_event videos fps ev = .ok rows) :
    ∃ walkRows,
      overflow_walk fps ev.cls (i + 1) (videos.drop (i + 1))
          ((ev.end_ts - vi.end_epoch_ts : ℤ) : ℚ) = .ok walkRows ∧
      rows = walkRows ++ [⟨i, ev.cls, ((ev.ts - vi.epoch_ts : ℤ) : ℚ) * (fps : ℚ),
          ((pyInt vi.length - 1 : ℤ) : ℚ) * (fps : ℚ)⟩] := by
  unfold process_event at hok
  rw [hfind] at hok
  dsimp only at hok
  rw [if_pos hover, map_eq_ok_iff] at hok
  obtain ⟨rs, hrs, hrows⟩ := hok
  exact ⟨rs, hrs, hrows⟩

theorem overflow_rows_precede_primary_witness :
    (find_latest_video 5 demoVideos = some (0, ⟨0, 10, 10⟩) ∧ (10 : ℤ) < 12 ∧
      process_event demoVideos 2 ⟨"Pos", 5, 12⟩
        = .ok [⟨1, "Pos", 4, 4⟩, ⟨0, "Pos", 10, 18⟩]) ∧
    ∃ walkRows,
      overflow_walk 2 "Pos" 1 (demoVideos.drop 1) ((12 - 10 : ℤ) : ℚ) = .ok walkRows ∧
      [(⟨1, "Pos", 4, 4⟩ : LabelRow), ⟨0, "Pos", 10, 18⟩]
        = walkRows ++ [⟨0, "Pos", ((5 - 0 : ℤ) : ℚ) * (2 : ℚ),
            ((pyInt (⟨0, 10, 10⟩ : VideoInfo).length - 1 : ℤ) : ℚ) * (2 : ℚ)⟩] := by
  have hfind : find_latest_video 5 demoVideos = some (0, ⟨0, 10, 10⟩) := by
    rw [demoVideos_eq]
    norm_num [find_latest_video, withIndex, List.argmin_cons, List.argmin_singleton]
  have heval : process_event demoVideos 2 ⟨"Pos", 5, 12⟩
      = .ok [⟨1, "Pos", 4, 4⟩, ⟨0, "Pos", 10, 18⟩] := by
    rw [demoVideos_eq]
    norm_num [process_event, find_latest_video, withIndex, overflow_walk, pyInt,
      List.argmin_cons, List.argmin_singleton, min_def, Except.map]
  exact ⟨⟨hfind, by norm_num, heval⟩,
    overflow_rows_precede_primary demoVideos 2 ⟨"Pos", 5, 12⟩ 0 ⟨0, 10, 10⟩
      [⟨1, "Pos", 4, 4⟩, ⟨0, "Pos", 10, 18⟩] hfind (by norm_num) heval⟩

theorem add_video_end_info_length (lastFrames fps : ℕ) :
    ∀ starts : List ℤ, (add_video_end_info lastFrames fps starts).length = starts.length
  | [] => rfl
  | [_] => rfl
  | s :: s' :: rest => by
    simp only [add_video_end_info, List.length_cons]
    rw [add_video_end_info_length lastFrames fps (s' :: rest)]
    simp

theorem add_video_end_info_getD (lastFrames fps : ℕ) :
    ∀ (starts : List ℤ) (i : ℕ), i + 1 < starts.length →
      (add_video_end_info lastFrames fps starts).getD i ⟨0, 0, 0⟩
        = ⟨starts.getD i 0, ((starts.getD (i + 1) 0 - starts.getD i 0 : ℤ) : ℚ),
            starts.getD (i + 1) 0⟩
  | [], i, h => by simp at h
  | [_], i, h => by simp at h
  | s :: s' :: rest, 0, _ => by simp [add_video_end_info]
  | s :: s' :: rest, (i + 1), h => by
    have hrec := add_video_end_info_getD lastFrames fps (s' :: rest) i (by simpa using h)
    simpa [add_video_end_info] using hrec

theorem add_video_end_info_last (lastFrames fps : ℕ) :
    ∀ (starts : List ℤ) (s : ℤ), starts.getLast? = some s →
      (add_video_end_info lastFrames fps starts).getD (starts.length - 1) ⟨0, 0, 0⟩
        = ⟨s, (lastFrames : ℚ) / (fps : ℚ), s + pyInt ((lastFrames : ℚ) / (fps : ℚ))⟩
  | [], s, h => by simp at h
  | [t], s, h => by
    simp at h
    subst h
    simp [add_video_end_info]
  | t :: t' :: rest, s, h => by
    have hlast : (t' :: rest).getLast? = some s := by
      simpa [List.getLast?_cons_cons] using h
    have hrec := add_video_end_info_last lastFrames fps (t' :: rest) s hlast
    have hL : (t :: t' :: rest : List ℤ).length - 1 = ((t' :: rest : List ℤ).length - 1) + 1 := by
      simp
    rw [hL]
    simpa [add_video_end_info] using hrec

/-- C4 counterexample: with a single segment of frame count 31 at frame rate
2, the built duration is the exact rational 31/2, not the claimed floor
`31 / 2 = 15`. -/
theorem timeline_last_duration_cex :
    ((add_video_end_info 31 2 [0]).getD 0 ⟨0, 0, 0⟩).length ≠ ((31 / 2 : ℕ) : ℚ) := by
  norm_num [add_video_end_info, pyInt]

/-- C4 amended: every non-last segment has `duration = next start − own start`
and `end time = next start = start + duration`; the last segment's duration is
the exact rational `frame_count / frame_rate` (NOT floored — the source's line
129 uses true division), while its end time is `start +
int(frame_count / frame_rate)` (floored), so `end = start + duration` holds
for the last segment only when the frame rate divides the frame count. -/
theorem timeline_build_spec (lastFrames fps : ℕ) (starts : List ℤ) :
    ((add_video_end_info lastFrames fps starts).length = starts.length) ∧
    (∀ i, i + 1 < starts.length →
      (add_video_end_info lastFrames fps starts).getD i ⟨0, 0, 0⟩
        = ⟨starts.getD i 0, ((starts.getD (i + 1) 0 - starts.getD i 0 : ℤ) : ℚ),
            starts.getD (i + 1) 0⟩) ∧
    (∀ s : ℤ, starts.getLast? = some s →
      (add_video_end_info lastFrames fps starts).getD (starts.length - 1) ⟨0, 0, 0⟩
        = ⟨s, (lastFrames : ℚ) / (fps : ℚ), s + pyInt ((lastFrames : ℚ) / (fps : ℚ))⟩) :=
  ⟨add_video_end_info_length lastFrames fps starts,
    fun i h => add_video_end_info_getD lastFrames fps starts i h,
    fun s h => add_video_end_info_last lastFrames fps starts s h⟩

theorem timeline_build_spec_witness :
    (0 + 1 < ([0, 10] : List ℤ).length ∧ ([0, 10] : List ℤ).getLast? = some 10) ∧
    (add_video_end_info 31 2 [0, 10]).getD 0 ⟨0, 0, 0⟩
        = ⟨(0 : ℤ), ((10 - 0 : ℤ) : ℚ), (10 : ℤ)⟩ ∧
    (add_video_end_info 31 2 [0, 10]).getD (([0, 10] : List ℤ).length - 1) ⟨0, 0, 0⟩
        = ⟨(10 : ℤ), (31 : ℚ) / (2 : ℚ), 10 + pyInt ((31 : ℚ) / (2 : ℚ))⟩ := by
  have h := timeline_build_spec 31 2 [0, 10]
  refine ⟨⟨by norm_num, by norm_num⟩, ?_, ?_⟩
  · have h0 := h.2.1 0 (by norm_num)
    simpa using h0
  · have h1 := h.2.2 10 (by norm_num)
    simpa using h1

/-- C6 counterexample: on the spec's boundary scenario (segments at 0, 10, 25,
frame rate 2, last frame count 30; event from 5 to 12) the run never produces
the claimed primary row with `end frame = 20` in the segment starting at 0. -/
theorem boundary_scenario_cex :
    ¬ ∃ rows, process_event demoVideos 2 ⟨"Pos", 5, 12⟩ = .ok rows ∧
        (⟨0, "Pos", 10, 20⟩ : LabelRow) ∈ rows := by
  rintro ⟨rows, heq, hmem⟩
  have heval : process_event demoVideos 2 ⟨"Pos", 5, 12⟩
      = .ok [⟨1, "Pos", 4, 4⟩, ⟨0, "Pos", 10, 18⟩] := by
    rw [demoVideos_eq]
    norm_num [process_event, find_latest_video, withIndex, overflow_walk, pyInt,
      List.argmin_cons, List.argmin_singleton, min_def, Except.map]
  rw [heval] at heq
  injection heq with h2
  subst h2
  norm_num [LabelRow.mk.injEq] at hmem

/-- C6 amended: the boundary scenario resolves the event to the owning segment
starting at 0 and yields the primary row `start frame 10, end frame 18`
(18 = (duration 10 − 1) × 2, by the one-second pullback), plus one overflow
row in the segment starting at 10 with `start frame 4, end frame 4`. -/
theorem boundary_scenario :
    process_event demoVideos 2 ⟨"Pos", 5, 12⟩
      = .ok [⟨1, "Pos", 4, 4⟩, ⟨0, "Pos", 10, 18⟩] := by
  rw [demoVideos_eq]
  norm_num [process_event, find_latest_video, withIndex, overflow_walk, pyInt,
    List.argmin_cons, List.argmin_singleton, min_def, Except.map]

theorem bind_error_eq {ε α β : Type} (e : ε) (f : α → Except ε β) :
    (Except.error e : Except ε α) >>= f = Except.error e := rfl

theorem bind_ok_eq {ε α β : Type} (a : α) (f : α → Except ε β) :
    (Except.ok a : Except ε α) >>= f = f a := rfl

theorem fmap_error_eq {ε α β : Type} (f : α → β) (e : ε) :
    (f <$> (Except.error e : Except ε α)) = Except.error e := rfl

theorem fmap_ok_eq {ε α β : Type} (f : α → β) (a : α) :
    (f <$> (Except.ok a : Except ε α)) = Except.ok (f a) := rfl

theorem collect_labels_error_of_mem (videos : List VideoInfo) (fps : ℕ) :
    ∀ (events : List Event) (ev : Event), ev ∈ events →
      (∃ e0, process_event videos fps ev = .error e0) →
      ∃ e, collect_labels videos fps events = .error e
  | [], ev, hmem, _ => by simp at hmem
  | ev' :: rest, ev, hmem, herr => by
    rcases List.mem_cons.mp hmem with rfl | hmem'
    · obtain ⟨e0, he0⟩ := herr
      refine ⟨e0, ?_⟩
      simp [collect_labels, he0, bind_error_eq]
    · rcases hp : process_event videos fps ev' with e1 | rs
      · refine ⟨e1, ?_⟩
        simp [collect_labels, hp, bind_error_eq]
      · obtain ⟨e, he⟩ := collect_labels_error_of_mem videos fps rest ev hmem' herr
        refine ⟨e, ?_⟩
        simp [collect_labels, hp, he, bind_ok_eq, bind_error_eq, fmap_error_eq]

theorem overflow_walk_exhausts (fps : ℕ) (cls : String) :
    ∀ (vl : List VideoInfo) (j : ℕ) (leftover : ℚ),
      (∀ v ∈ vl, 0 ≤ v.length) →
      (vl.map VideoInfo.length).sum < leftover →
      overflow_walk fps cls j vl leftover = .error .SegmentExhausted
  | [], j, leftover, _, hsum => by
    simp at hsum
    simp [overflow_walk, hsum]
  | v :: rest, j, leftover, hnn, hsum => by
    have hvnn : 0 ≤ v.length := hnn v (by simp)
    have hrnn : ∀ u ∈ rest, 0 ≤ u.length := fun u hu => hnn u (by simp [hu])
    have hrsum : 0 ≤ (rest.map VideoInfo.length).sum := by
      apply List.sum_nonneg
      intro x hx
      obtain ⟨u, hu, rfl⟩ := List.mem_map.mp hx
      exact hrnn u hu
    rw [List.map_cons, List.sum_cons] at hsum
    have h0 : 0 < leftover := by linarith
    have h1 : ¬ leftover < v.length := by linarith
    rw [overflow_walk_advance fps cls j v rest leftover h0 h1]
    rw [overflow_walk_exhausts fps cls rest (j + 1) (leftover - v.length) hrnn (by linarith)]
    rfl

/-- C7: when an overflowing event's leftover exceeds the total duration of all
segments after the owning one, processing that event fails with
`SegmentExhausted` (the source's `IndexError` on `iloc[video_index]`), and any
run whose event list contains it raises and produces no output table — no
truncated or partial rows. -/
theorem segment_exhausted (videos : List VideoInfo) (fps : ℕ) (ev : Event)
    (i : ℕ) (vi : VideoInfo)
    (hfind : find_latest_video ev.ts videos = some (i, vi))
    (hnn : ∀ v ∈ videos, 0 ≤ v.length)
    (hsum : ((videos.drop (i + 1)).map VideoInfo.length).sum
      < ((ev.end_ts - vi.end_epoch_ts : ℤ) : ℚ)) :
    process_event videos fps ev = .error .SegmentExhausted ∧
    ∀ events, ev ∈ events → ∃ e, collect_labels videos fps events = .error e := by
  have hdnn : ∀ v ∈ videos.drop (i + 1), 0 ≤ v.length :=
    fun v hv => hnn v (List.mem_of_mem_drop hv)
  have hsnn : 0 ≤ ((videos.drop (i + 1)).map VideoInfo.length).sum := by
    apply List.sum_nonneg
    intro x hx
    obtain ⟨u, hu, rfl⟩ := List.mem_map.mp hx
    exact hdnn u hu
  have hposq : (0 : ℚ) < ((ev.end_ts - vi.end_epoch_ts : ℤ) : ℚ) := lt_of_le_of_lt hsnn hsum
  have hover : vi.end_epoch_ts < ev.end_ts := by
    have := Int.cast_pos.mp hposq
    omega
  have hproc : process_event videos fps ev = .error .SegmentExhausted := by
    unfold process_event
    rw [hfind]
    dsimp only
    rw [if_pos hover]
    rw [overflow_walk_exhausts fps ev.cls (videos.drop (i + 1)) (i + 1)
      ((ev.end_ts - vi.end_epoch_ts : ℤ) : ℚ) hdnn hsum]
    rfl
  exact ⟨hproc, fun events hmem =>
    collect_labels_error_of_mem videos fps events ev hmem ⟨_, hproc⟩⟩

theorem segment_exhausted_witness :
    (find_latest_video 5 demoVideos = some (0, ⟨0, 10, 10⟩) ∧
      (∀ v ∈ demoVideos, 0 ≤ v.length) ∧
      ((demoVideos.drop 1).map VideoInfo.length).sum < (((100 : ℤ) - 10 : ℤ) : ℚ)) ∧
    process_event demoVideos 2 ⟨"Pos", 5, 100⟩ = .error .SegmentExhausted := by
  have hfind : find_latest_video 5 demoVideos = some (0, ⟨0, 10, 10⟩) := by
    rw [demoVideos_eq]
    norm_num [find_latest_video, withIndex, List.argmin_cons, List.argmin_singleton]
  have hnn : ∀ v ∈ demoVideos, 0 ≤ v.length := by
    rw [demoVideos_eq]
    norm_num
  have hsum : ((demoVideos.drop 1).map VideoInfo.length).sum
      < (((100 : ℤ) - 10 : ℤ) : ℚ) := by
    rw [demoVideos_eq]
    norm_num
  exact ⟨⟨hfind, hnn, hsum⟩,
    (segment_exhausted demoVideos 2 ⟨"Pos", 5, 100⟩ 0 ⟨0, 10, 10⟩ hfind hnn hsum).1⟩

/-- C8: an event starting no later than every segment's start time has no
owning segment: the candidate set of `_find_latest_video` is empty (the
source's `ValueError` on an empty `argmin`), processing the event yields
`UnalignedEvent`, and any run containing it errors with no output — the event
is neither dropped nor clamped to the first segment. -/
theorem unaligned_event (videos : List VideoInfo) (fps : ℕ) (ev : Event)
    (h : ∀ v ∈ videos, ¬ v.epoch_ts < ev.ts) :
    find_latest_video ev.ts videos = none ∧
    process_event videos fps ev = .error .UnalignedEvent ∧
    ∀ events, ev ∈ events → ∃ e, collect_labels videos fps events = .error e := by
  have hnone : find_latest_video ev.ts videos = none := by
    rw [find_latest_video, List.argmin_eq_none, List.filter_eq_nil_iff]
    intro p hp
    rw [mem_withIndex] at hp
    obtain ⟨k, hk, rfl⟩ := hp
    simpa using h _ (List.get_mem videos k hk)
  have hproc : process_event videos fps ev = .error .UnalignedEvent := by
    unfold process_event
    rw [hnone]
  exact ⟨hnone, hproc, fun events hmem =>
    collect_labels_error_of_mem videos fps events ev hmem ⟨_, hproc⟩⟩

theorem built_len_nonneg (lastFrames fps : ℕ) :
    ∀ starts : List ℤ, List.Pairwise (· < ·) starts →
      ∀ v ∈ add_video_end_info lastFrames fps starts, 0 ≤ v.length
  | [], _, v, hv => by simp [add_video_end_info] at hv
  | [s], _, v, hv => by
    simp [add_video_end_info] at hv
    subst hv
    positivity
  | s :: s' :: rest, hsort, v, hv => by
    rw [List.pairwise_cons] at hsort
    rcases List.mem_cons.mp hv with rfl | hv'
    · have hss : s < s' := hsort.1 s' (by simp)
      simp only []
      have : (0 : ℤ) ≤ s' - s := by omega
      exact_mod_cast this
    · exact built_len_nonneg lastFrames fps (s' :: rest) hsort.2 v hv'

theorem built_end_le (lastFrames fps : ℕ) :
    ∀ starts : List ℤ,
      ∀ v ∈ add_video_end_info lastFrames fps starts,
        (v.end_epoch_ts : ℚ) ≤ (v.epoch_ts : ℚ) + v.length
  | [], v, hv => by simp [add_video_end_info] at hv
  | [s], v, hv => by
    simp [add_video_end_info] at hv
    subst hv
    have hq : (0 : ℚ) ≤ (lastFrames : ℚ) / (fps : ℚ) := by positivity
    have := pyInt_cast_le hq
    push_cast
    linarith
  | s :: s' :: rest, v, hv => by
    rcases List.mem_cons.mp hv with rfl | hv'
    · simp only []
      push_cast
      linarith
    · exact built_end_le lastFrames fps (s' :: rest) v hv'

theorem built_video_nonlast (lastFrames fps : ℕ) (starts : List ℤ)
    (hsort : List.Pairwise (· < ·) starts) (i : ℕ)
    (hi : i < (add_video_end_info lastFrames fps starts).length)
    (h2 : i + 1 < (add_video_end_info lastFrames fps starts).length) :
    ∃ d : ℤ, 1 ≤ d ∧
      ((add_video_end_info lastFrames fps starts).get ⟨i, hi⟩).length = (d : ℚ) := by
  have hlen := add_video_end_info_length lastFrames fps starts
  have h2s : i + 1 < starts.length := by omega
  have his : i < starts.length := by omega
  have hchar := add_video_end_info_getD lastFrames fps starts i h2s
  have hgd : (add_video_end_info lastFrames fps starts).getD i ⟨0, 0, 0⟩
      = (add_video_end_info lastFrames fps starts).get ⟨i, hi⟩ :=
    List.getD_eq_get _ _ hi
  refine ⟨starts.getD (i + 1) 0 - starts.getD i 0, ?_, ?_⟩
  · have hpg := List.pairwise_iff_get.mp hsort ⟨i, his⟩ ⟨i + 1, h2s⟩
      (Fin.mk_lt_mk.mpr (by omega))
    have hgi : starts.getD i 0 = starts.get ⟨i, his⟩ := List.getD_eq_get _ _ his
    have hgi1 : starts.getD (i + 1) 0 = starts.get ⟨i + 1, h2s⟩ := List.getD_eq_get _ _ h2s
    omega
  · rw [← hgd, hchar]

theorem overflow_walk_bounds (videos : List VideoInfo) (fps : ℕ) (cls : String)
    (hfps : 0 < fps) :
    ∀ (vl : List VideoInfo) (j : ℕ) (leftover : ℚ) (rows : List LabelRow),
      (∀ k (hk : k < vl.length), ∃ h : j + k < videos.length,
        videos.get ⟨j + k, h⟩ = vl.get ⟨k, hk⟩) →
      (∀ v ∈ vl, 0 ≤ v.length) →
      overflow_walk fps cls j vl leftover = .ok rows →
      ∀ r ∈ rows, 0 ≤ r.start_frame ∧ 0 ≤ r.end_frame ∧
        ∃ h : r.filename < videos.length,
          r.end_frame ≤ (videos.get ⟨r.filename, h⟩).length * (fps : ℚ)
  | [], j, leftover, rows, _, _, hok => by
    by_cases h0 : 0 < leftover
    · simp [overflow_walk, h0] at hok
    · rw [overflow_walk_nonpos fps cls j [] leftover h0] at hok
      injection hok with h2
      subst h2
      simp
  | v :: rest, j, leftover, rows, hcorr, hnn, hok => by
    have hfq : (0 : ℚ) < (fps : ℚ) := by exact_mod_cast hfps
    by_cases h0 : 0 < leftover
    · have hvnn : 0 ≤ v.length := hnn v (by simp)
      have hrest : ∀ k (hk : k < rest.length), ∃ h : (j + 1) + k < videos.length,
          videos.get ⟨(j + 1) + k, h⟩ = rest.get ⟨k, hk⟩ := by
        intro k hk
        obtain ⟨h, hg⟩ := hcorr (k + 1) (by simpa using hk)
        have hlt2 : (j + 1) + k < videos.length := by omega
        refine ⟨hlt2, ?_⟩
        have hfin : (⟨(j + 1) + k, hlt2⟩ : Fin videos.length) = ⟨j + (k + 1), h⟩ := by
          apply Fin.ext
          simp
          omega
        rw [hfin, hg]
        simp
      obtain ⟨hjlt0, hjv0⟩ := hcorr 0 (by simp)
      have hjlt : j < videos.length := by omega
      have hjv : videos.get ⟨j, hjlt⟩ = v := by
        have hfin0 : (⟨j + 0, hjlt0⟩ : Fin videos.length) = ⟨j, hjlt⟩ := by
          apply Fin.ext
          simp
        rw [← hfin0, hjv0]
        simp
      have hrnn : ∀ u ∈ rest, 0 ≤ u.length := fun u hu => hnn u (by simp [hu])
      have hstart : (0 : ℚ) ≤ min 4 (leftover * (fps : ℚ)) :=
        le_min (by norm_num) (le_of_lt (mul_pos h0 hfq))
      by_cases h1 : leftover < v.length
      · rw [overflow_walk_stop fps cls j v rest leftover h0 h1] at hok
        injection hok with h2
        subst h2
        intro r hr
        simp only [List.mem_singleton] at hr
        subst hr
        refine ⟨hstart, le_of_lt (mul_pos h0 hfq), hjlt, ?_⟩
        rw [hjv]
        exact mul_le_mul_of_nonneg_right (le_of_lt h1) (le_of_lt hfq)
      · rw [overflow_walk_advance fps cls j v rest leftover h0 h1,
          map_eq_ok_iff] at hok
        obtain ⟨rs, hrs, rfl⟩ := hok
        intro r hr
        rcases List.mem_cons.mp hr with rfl | hr'
        · refine ⟨hstart, hvnn, hjlt, ?_⟩
          rw [hjv]
          exact le_mul_of_one_le_right hvnn (by exact_mod_cast hfps)
        · exact overflow_walk_bounds videos fps cls hfps rest (j + 1) _ rs
            hrest hrnn hrs r hr'
    · rw [overflow_walk_nonpos fps cls j (v :: rest) leftover h0] at hok
      injection hok with h2
      subst h2
      simp

theorem process_event_bounds (starts : List ℤ) (lastFrames fps : ℕ)
    (hfps : 0 < fps) (hsort : List.Pairwise (· < ·) starts)
    (ev : Event) (hev : ev.ts ≤ ev.end_ts) (rows : List LabelRow)
    (hok : process_event (add_video_end_info lastFrames fps starts) fps ev = .ok rows) :
    ∀ r ∈ rows, 0 ≤ r.start_frame ∧ 0 ≤ r.end_frame ∧
      ∃ h : r.filename < (add_video_end_info lastFrames fps starts).length,
        r.end_frame ≤ ((add_video_end_info lastFrames fps starts).get
          ⟨r.filename, h⟩).length * (fps : ℚ) := by
  set videos := add_video_end_info lastFrames fps starts with hv
  have hfq : (0 : ℚ) < (fps : ℚ) := by exact_mod_cast hfps
  cases hfind : find_latest_video ev.ts videos with
  | none =>
    unfold process_event at hok
    rw [hfind] at hok
    exact absurd hok (by simp)
  | some p =>
    obtain ⟨i, vi⟩ := p
    obtain ⟨hi, hget, hlt⟩ := find_latest_video_some hfind
    unfold process_event at hok
    rw [hfind] at hok
    dsimp only at hok
    by_cases hover : vi.end_epoch_ts < ev.end_ts
    · rw [if_pos hover, map_eq_ok_iff] at hok
      obtain ⟨rs, hrs, rfl⟩ := hok
      have hlpos : (0 : ℚ) < ((ev.end_ts - vi.end_epoch_ts : ℤ) : ℚ) := by
        exact_mod_cast (by omega : (0 : ℤ) < ev.end_ts - vi.end_epoch_ts)
      have hdrop : videos.drop (i + 1) ≠ [] := by
        intro hnil
        rw [hnil] at hrs
        simp [overflow_walk, hlpos, hover] at hrs
      have hi1 : i + 1 < videos.length := by
        by_contra hle
        push_neg at hle
        exact hdrop (List.drop_eq_nil_of_le hle)
      obtain ⟨d, hd1, hdlen⟩ := built_video_nonlast lastFrames fps starts hsort i hi hi1
      rw [hget] at hdlen
      intro r hr
      rcases List.mem_append.mp hr with hr' | hr'
      · refine overflow_walk_bounds videos fps ev.cls hfps (videos.drop (i + 1))
          (i + 1) _ rs ?_ ?_ hrs r hr'
        · intro k hk
          have hklen : k < videos.length - (i + 1) := by
            simpa [List.length_drop] using hk
          have hlt2 : (i + 1) + k < videos.length := by omega
          refine ⟨hlt2, ?_⟩
          simp [List.get_eq_getElem, List.getElem_drop]
        · intro u hu
          exact built_len_nonneg lastFrames fps starts hsort u (List.mem_of_mem_drop hu)
      · simp only [List.mem_singleton] at hr'
        subst hr'
        refine ⟨?_, ?_, hi, ?_⟩
        · apply mul_nonneg _ (le_of_lt hfq)
          exact_mod_cast (by omega : (0 : ℤ) ≤ ev.ts - vi.epoch_ts)
        · apply mul_nonneg _ (le_of_lt hfq)
          rw [hdlen, pyInt_intCast]
          exact_mod_cast (by omega : (0 : ℤ) ≤ d - 1)
        · rw [hget, hdlen, pyInt_intCast]
          apply mul_le_mul_of_nonneg_right _ (le_of_lt hfq)
          exact_mod_cast (by omega : (d - 1 : ℤ) ≤ d)
    · rw [if_neg hover] at hok
      injection hok with h2
      subst h2
      intro r hr
      simp only [List.mem_singleton] at hr
      subst hr
      refine ⟨?_, ?_, hi, ?_⟩
      · apply mul_nonneg _ (le_of_lt hfq)
        exact_mod_cast (by omega : (0 : ℤ) ≤ ev.ts - vi.epoch_ts)
      · apply mul_nonneg _ (le_of_lt hfq)
        exact_mod_cast (by omega : (0 : ℤ) ≤ ev.end_ts - vi.epoch_ts)
      · rw [hget]
        have hmem : vi ∈ videos := hget ▸ List.get_mem videos i hi
        have hA2 := built_end_le lastFrames fps starts vi hmem
        apply mul_le_mul_of_nonneg_right _ (le_of_lt hfq)
        have hcast : ((ev.end_ts : ℤ) : ℚ) ≤ ((vi.end_epoch_ts : ℤ) : ℚ) := by
          exact_mod_cast not_lt.mp hover
        push_cast
        push_cast at hcast hA2
        linarith

theorem collect_labels_bounds (starts : List ℤ) (lastFrames fps : ℕ)
    (hfps : 0 < fps) (hsort : List.Pairwise (· < ·) starts) :
    ∀ (events : List Event), (∀ ev ∈ events, ev.ts ≤ ev.end_ts) →
      ∀ rows : List LabelRow,
        collect_labels (add_video_end_info lastFrames fps starts) fps events = .ok rows →
        ∀ r ∈ rows, 0 ≤ r.start_frame ∧ 0 ≤ r.end_frame ∧
          ∃ h : r.filename < (add_video_end_info lastFrames fps starts).length,
            r.end_frame ≤ ((add_video_end_info lastFrames fps starts).get
              ⟨r.filename, h⟩).length * (fps : ℚ)
  | [], _, rows, hok => by
    simp [collect_labels] at hok
    subst hok
    simp
  | ev :: rest, hev, rows, hok => by
    rcases hp : process_event (add_video_end_info lastFrames fps starts) fps ev with e | rs
    · simp [collect_labels, hp, bind_error_eq] at hok
    · rcases hc : collect_labels (add_video_end_info lastFrames fps starts) fps rest
        with e | tail
      · simp [collect_labels, hp, hc, bind_ok_eq, bind_error_eq] at hok
      · have hok' : rows = rs ++ tail := by
          simp [collect_labels, hp, hc, bind_ok_eq, pure, Except.pure] at hok
          exact hok.symm
        subst hok'
        intro r hr
        rcases List.mem_append.mp hr with hr' | hr'
        · exact process_event_bounds starts lastFrames fps hfps hsort ev
            (hev ev (by simp)) rs hp r hr'
        · exact collect_labels_bounds starts lastFrames fps hfps hsort rest
            (fun e he => hev e (by simp [he])) tail hc r hr'

/-- C5 counterexample: an event starting exactly at a segment boundary (here
at time 10, owned by the segment starting at 0 whose end is 10) and
overflowing gives a primary row with `start frame 20 > end frame 18`,
violating the claimed chain `0 ≤ start_frame ≤ end_frame ≤ duration * fps`. -/
theorem label_frames_monotone_cex :
    collect_labels demoVideos 2 [⟨"Pos", 10, 12⟩]
      = .ok [⟨1, "Pos", 4, 4⟩, ⟨0, "Pos", 20, 18⟩] ∧
    ¬ ((⟨0, "Pos", 20, 18⟩ : LabelRow).start_frame
        ≤ (⟨0, "Pos", 20, 18⟩ : LabelRow).end_frame) := by
  constructor
  · have heval : process_event demoVideos 2 ⟨"Pos", 10, 12⟩
        = .ok [⟨1, "Pos", 4, 4⟩, ⟨0, "Pos", 20, 18⟩] := by
      rw [demoVideos_eq]
      norm_num [process_event, find_latest_video, withIndex, overflow_walk, pyInt,
        List.argmin_cons, List.argmin_singleton, min_def, Except.map]
    simp [collect_labels, heval, bind_ok_eq, pure, Except.pure]
  · norm_num

/-- C5 amended: for every label row emitted by a successful run over a
strictly sorted segment timeline with positive frame rate and events with
`ts ≤ end_ts`, both frames are nonnegative and the end frame is at most
`duration * fps` for the row's segment; the full chain
`start_frame ≤ end_frame` of the original claim is FALSE in general (see the
counterexample: boundary events, and pass-through overflow rows of short
segments, can give `start_frame > end_frame`). -/
theorem label_frames_bounds (starts : List ℤ) (lastFrames fps : ℕ)
    (events : List Event) (rows : List LabelRow)
    (hfps : 0 < fps)
    (hsort : List.Pairwise (· < ·) starts)
    (hev : ∀ ev ∈ events, ev.ts ≤ ev.end_ts)
    (hok : collect_labels (add_video_end_info lastFrames fps starts) fps events
      = .ok rows) :
    ∀ r ∈ rows, 0 ≤ r.start_frame ∧ 0 ≤ r.end_frame ∧
      ∃ h : r.filename < (add_video_end_info lastFrames fps starts).length,
        r.end_frame ≤ ((add_video_end_info lastFrames fps starts).get
          ⟨r.filename, h⟩).length * (fps : ℚ) :=
  collect_labels_bounds starts lastFrames fps hfps hsort events hev rows hok

theorem label_frames_bounds_witness :
    (0 < 2 ∧ List.Pairwise (· < ·) ([0, 10, 25] : List ℤ) ∧
      (∀ ev ∈ [(⟨"Pos", 5, 12⟩ : Event)], ev.ts ≤ ev.end_ts) ∧
      collect_labels (add_video_end_info 30 2 [0, 10, 25]) 2 [⟨"Pos", 5, 12⟩]
        = .ok [⟨1, "Pos", 4, 4⟩, ⟨0, "Pos", 10, 18⟩]) ∧
    ∀ r ∈ [(⟨1, "Pos", 4, 4⟩ : LabelRow), ⟨0, "Pos", 10, 18⟩],
      0 ≤ r.start_frame ∧ 0 ≤ r.end_frame ∧
        ∃ h : r.filename < (add_video_end_info 30 2 [0, 10, 25]).length,
          r.end_frame ≤ ((add_video_end_info 30 2 [0, 10, 25]).get
            ⟨r.filename, h⟩).length * (2 : ℚ) := by
  have heval : process_event (add_video_end_info 30 2 [0, 10, 25]) 2 ⟨"Pos", 5, 12⟩
      = .ok [⟨1, "Pos", 4, 4⟩, ⟨0, "Pos", 10, 18⟩] := by
    norm_num [process_event, find_latest_video, add_video_end_info, withIndex,
      overflow_walk, pyInt, List.argmin_cons, List.argmin_singleton, min_def, Except.map]
  have hok : collect_labels (add_video_end_info 30 2 [0, 10, 25]) 2 [⟨"Pos", 5, 12⟩]
      = .ok [⟨1, "Pos", 4, 4⟩, ⟨0, "Pos", 10, 18⟩] := by
    simp [collect_labels, heval, bind_ok_eq, pure, Except.pure]
  have hsort : List.Pairwise (· < ·) ([0, 10, 25] : List ℤ) := by norm_num
  have hev : ∀ ev ∈ [(⟨"Pos", 5, 12⟩ : Event)], ev.ts ≤ ev.end_ts := by
    intro ev hmem
    simp at hmem
    subst hmem
    norm_num
  exact ⟨⟨by norm_num, hsort, hev, hok⟩,
    label_frames_bounds [0, 10, 25] 30 2 [⟨"Pos", 5, 12⟩]
      [⟨1, "Pos", 4, 4⟩, ⟨0, "Pos", 10, 18⟩] (by norm_num) hsort hev hok⟩

theorem unaligned_event_witness :
    (∀ v ∈ demoVideos, ¬ v.epoch_ts < (0 : ℤ)) ∧
    find_latest_video 0 demoVideos = none ∧
    process_event demoVideos 2 ⟨"Pos", 0, 5⟩ = .error .UnalignedEvent := by
  have h : ∀ v ∈ demoVideos, ¬ v.epoch_ts < (0 : ℤ) := by
    rw [demoVideos_eq]
    norm_num
  have hc := unaligned_event demoVideos 2 ⟨"Pos", 0, 5⟩ h
  exact ⟨h, hc.1, hc.2.1⟩

end BeeAnalysis
